import Mathlib

/-!
Verification of the progress-reporting utility `scripts/progress.py`.

The program is shallow-embedded below:
* Python `round` on a float is modelled by `pyRound` on `ℚ` (round to nearest,
  ties to even — Python's documented behaviour; at tie values `x.5` the IEEE
  quotient `(n * 100.0) / d` is exact, so the rational model agrees with the
  float computation there).
* file-system values (state file, README) are modelled as `Option`s of their
  contents; a missing file is `none`.
* the scanned tree is a list of entries, each carrying its path components and
  an is-file flag; `find_all_exercises` produces the catalog as the finite set
  of (topic, slug) pairs, which carries the same information as the Python
  dict of sets.
-/

namespace Progress

/-- Python's `round` to an integer, on rationals: round half to even. -/
def pyRound (q : ℚ) : ℤ :=
  if Int.fract q < 1/2 then ⌊q⌋
  else if 1/2 < Int.fract q then ⌊q⌋ + 1
  else if ⌊q⌋ % 2 = 0 then ⌊q⌋ else ⌊q⌋ + 1

/-- Function `percent` from progress.py: `0 if d == 0 else round((n * 100.0) / d)`. -/
def percent (n d : ℕ) : ℤ :=
  if d = 0 then 0 else pyRound ((n * 100 : ℚ) / d)

/-- Characters accepted by the slug regex `^([A-Za-z0-9_\-\.]+)`. -/
def slugChar (c : Char) : Bool :=
  c.isAlphanum || c = '_' || c = '-' || c = '.'

/-- Whitespace as stripped by Python `str.strip()` (the ASCII cases). -/
def pySpace (c : Char) : Bool := c.isWhitespace

/-- Python `str.strip()` on the characters of a line. -/
def trimChars (l : List Char) : List Char :=
  ((l.dropWhile pySpace).reverse.dropWhile pySpace).reverse

/-- Split file contents at newline characters. Python `str.splitlines()`
additionally drops a final empty line; since blank lines are skipped by the
reader, the resulting slug set is unchanged. -/
def splitLines : List Char → List (List Char)
  | [] => [[]]
  | c :: cs =>
    match splitLines cs with
    | [] => [[c]]
    | l :: ls => if c = '\n' then [] :: l :: ls else (c :: l) :: ls

/-- Python `str.removesuffix(".rs")`. -/
def stripRs (l : List Char) : List Char :=
  if ['.', 'r', 's'].isSuffixOf l then l.take (l.length - 3) else l

/-- Function `read_completed_slugs` from progress.py, on the optional file contents.
A missing state file (`none`) yields the empty set; otherwise each line is
stripped, blank lines and lines with no leading slug run are skipped, and the
leading slug run with a `".rs"` suffix removed is added to the set. -/
def read_completed_slugs (st : Option String) : Finset String :=
  match st with
  | none => ∅
  | some content =>
      (splitLines content.toList).foldl
        (fun acc l =>
          let t := trimChars l
          if t.isEmpty then acc
          else
            let s := t.takeWhile slugChar
            if s.isEmpty then acc else insert (stripRs s).asString acc)
        ∅

/-- Constant `EXCLUDE_DIRS` from progress.py. -/
def EXCLUDE_DIRS : List String := ["answers", ".git", "target"]

/-- Constant `VALID_EXTS` from progress.py. -/
def VALID_EXTS : List String := [".rs"]

/-- A file-system entry seen by `EXER_DIR.rglob("*")`: its path components
(as in Python's `path.parts`) and whether it is a regular file. -/
structure Entry where
  parts : List String
  isFile : Bool
deriving DecidableEq, Repr

/-- Python `path.name`: the last path component. -/
def entryName (e : Entry) : String := (e.parts.getLast?).getD ("")

/-- Python `path.parent.name`: the next-to-last path component. -/
def entryParent (e : Entry) : String := (e.parts.dropLast.getLast?).getD ("")

/-- Index of the last `'.'` in a name, if any (Python `str.rfind('.')`). -/
def lastDotIdx (l : List Char) : Option ℕ :=
  (l.reverse.findIdx? (· = '.')).map (fun j => l.length - 1 - j)

/-- Python `pathlib.PurePath.suffix`: the part of the name from its last dot on,
empty when the dot is the first or last character or there is no dot. -/
def fileSuffix (name : String) : String :=
  let l := name.toList
  match lastDotIdx l with
  | none => ""
  | some i => if 0 < i ∧ i < l.length - 1 then (l.drop i).asString else ("")

/-- Python `pathlib.PurePath.stem`: the name with its `suffix` removed. -/
def fileStem (name : String) : String :=
  let l := name.toList
  match lastDotIdx l with
  | none => name
  | some i => if 0 < i ∧ i < l.length - 1 then (l.take i).asString else name

/-- Python `any(part in EXCLUDE_DIRS for part in path.parts)`. -/
def excluded (e : Entry) : Bool :=
  e.parts.any (fun p => EXCLUDE_DIRS.contains p)

/-- Function `find_all_exercises` from progress.py over the enumerated entries: the
catalog as the set of (topic, slug) pairs. A pair is contributed by every
non-excluded regular file whose suffix is in the allow-list, with the parent
directory name as topic and the stem as slug. -/
def find_all_exercises (entries : List Entry) : Finset (String × String) :=
  entries.foldr
    (fun e acc =>
      if !excluded e && e.isFile && VALID_EXTS.contains (fileSuffix (entryName e))
      then insert (entryParent e, fileStem (entryName e)) acc
      else acc)
    ∅

/-- The topics of a catalog (the keys of the Python dict). -/
def topicsOf (cat : Finset (String × String)) : Finset String :=
  cat.image Prod.fst

/-- The slug set of one topic (one value of the Python dict). -/
def slugsOf (cat : Finset (String × String)) (t : String) : Finset String :=
  (cat.filter (fun p => p.1 = t)).image Prod.snd

/-- Line `total = sum(len(v) for v in topics.values())` of `main`. -/
def totalOf (cat : Finset (String × String)) : ℕ :=
  (topicsOf cat).sum (fun t => (slugsOf cat t).card)

/-- Line `done = sum(len(v & completed) for v in topics.values())` of `main`. -/
def doneOf (cat : Finset (String × String)) (completed : Finset String) : ℕ :=
  (topicsOf cat).sum (fun t => ((slugsOf cat t) ∩ completed).card)

/-- A `{"done": …, "total": …, "pct": …}` record. -/
structure Summary where
  done : ℕ
  total : ℕ
  pct : ℤ
deriving DecidableEq, Repr

/-- The overall summary computed by `main`. -/
def overallSummary (cat : Finset (String × String)) (completed : Finset String) :
    Summary :=
  ⟨doneOf cat completed, totalOf cat, percent (doneOf cat completed) (totalOf cat)⟩

/-- The per-topic summary computed by `main`'s `per_topic` loop. -/
def topicSummary (cat : Finset (String × String)) (completed : Finset String)
    (t : String) : Summary :=
  ⟨((slugsOf cat t) ∩ completed).card, (slugsOf cat t).card,
    percent ((slugsOf cat t) ∩ completed).card (slugsOf cat t).card⟩

/-! ### Properties of `pyRound` and `percent` -/

theorem pyRound_nearest (q : ℚ) :
    |(pyRound q : ℚ) - q| ≤ 1/2 ∧ (|(pyRound q : ℚ) - q| = 1/2 → pyRound q % 2 = 0) := by
  have hr0 : 0 ≤ Int.fract q := Int.fract_nonneg q
  have hr1 : Int.fract q < 1 := Int.fract_lt_one q
  have hfa : (⌊q⌋ : ℚ) + Int.fract q = q := Int.floor_add_fract q
  unfold pyRound
  split_ifs with h1 h2 h3
  · have h : |(⌊q⌋ : ℚ) - q| = Int.fract q := by
      rw [abs_sub_comm, abs_of_nonneg (by linarith)]
      linarith
    refine ⟨by rw [h]; linarith, ?_⟩
    rw [h]
    intro habs
    exact absurd habs (ne_of_lt h1)
  · have h : |((⌊q⌋ + 1 : ℤ) : ℚ) - q| = 1 - Int.fract q := by
      push_cast
      rw [abs_of_nonneg (by linarith)]
      linarith
    refine ⟨by rw [h]; linarith, ?_⟩
    rw [h]
    intro habs
    have heq : Int.fract q = 1/2 := by linarith
    exact absurd heq (ne_of_gt h2)
  · have heq : Int.fract q = 1/2 := le_antisymm (not_lt.mp h2) (not_lt.mp h1)
    have h : |(⌊q⌋ : ℚ) - q| = 1/2 := by
      rw [abs_sub_comm, abs_of_nonneg (by linarith), ← heq]
      linarith
    exact ⟨le_of_eq h, fun _ => h3⟩
  · have heq : Int.fract q = 1/2 := le_antisymm (not_lt.mp h2) (not_lt.mp h1)
    have h : |((⌊q⌋ + 1 : ℤ) : ℚ) - q| = 1/2 := by
      push_cast
      rw [abs_of_nonneg (by linarith)]
      linarith
    exact ⟨le_of_eq h, fun _ => by omega⟩

theorem percent_nonneg (n d : ℕ) : 0 ≤ percent n d := by
  unfold percent
  split_ifs with h
  · exact le_refl 0
  · have hq : (0 : ℚ) ≤ (n * 100 : ℚ) / d := by positivity
    have hfl : (0 : ℤ) ≤ ⌊(n * 100 : ℚ) / d⌋ := Int.floor_nonneg.mpr hq
    unfold pyRound
    split_ifs <;> omega

theorem percent_le_100 (n d : ℕ) (hnd : n ≤ d) : percent n d ≤ 100 := by
  unfold percent
  split_ifs with h
  · norm_num
  · have hd0 : (0 : ℚ) < (d : ℚ) := by
      exact_mod_cast Nat.pos_of_ne_zero h
    have hq : (n * 100 : ℚ) / d ≤ 100 := by
      rw [div_le_iff₀ hd0]
      have : (n : ℚ) ≤ (d : ℚ) := by exact_mod_cast hnd
      nlinarith
    have hfl : ⌊(n * 100 : ℚ) / d⌋ ≤ 100 := by
      have := Int.floor_le_floor (α := ℚ) hq
      simpa using this
    set q : ℚ := (n * 100 : ℚ) / d with hqdef
    have hr1 : Int.fract q < 1 := Int.fract_lt_one q
    have hfa : (⌊q⌋ : ℚ) + Int.fract q = q := Int.floor_add_fract q
    unfold pyRound
    split_ifs with h1 h2 h3
    · exact hfl
    · have hc : (⌊q⌋ : ℚ) < 100 := by linarith
      have : ⌊q⌋ < 100 := by exact_mod_cast hc
      omega
    · exact hfl
    · have heq : Int.fract q = 1/2 := le_antisymm (not_lt.mp h2) (not_lt.mp h1)
      have hc : (⌊q⌋ : ℚ) < 100 := by linarith
      have : ⌊q⌋ < 100 := by exact_mod_cast hc
      omega

/-- C2 counterexample: at `n = 1, d = 8` the code rounds `12.5` to the even
integer `12`, while standard (half-up / half-away-from-zero) rounding of
`12.5` gives `13`. -/
theorem percent_one_eighth_ne_round :
    percent 1 8 = 12 ∧ round ((1 * 100 : ℚ) / 8) = 13 ∧
      percent 1 8 ≠ round ((1 * 100 : ℚ) / 8) := by
  have h1 : percent 1 8 = 12 := by
    norm_num [percent, pyRound, Int.fract]
  have h2 : round ((1 * 100 : ℚ) / 8) = 13 := by
    norm_num [round_eq]
  exact ⟨h1, h2, by rw [h1, h2]; decide⟩

/-- C2 (amended): for `d > 0`, `percent n d` is a nearest integer to
`n * 100 / d`, with ties broken to the even integer (Python's `round`),
rather than by standard half-up rounding; the three quoted examples hold. -/
theorem percent_round_half_even (n d : ℕ) (hd : 0 < d) :
    |(percent n d : ℚ) - (n * 100 : ℚ) / d| ≤ 1/2 ∧
      (|(percent n d : ℚ) - (n * 100 : ℚ) / d| = 1/2 → percent n d % 2 = 0) ∧
      percent 1 2 = 50 ∧ percent 1 3 = 33 ∧ percent 2 3 = 67 := by
  have hper : percent n d = pyRound ((n * 100 : ℚ) / d) := by
    unfold percent
    rw [if_neg (Nat.pos_iff_ne_zero.mp hd)]
  refine ⟨?_, ?_, ?_, ?_, ?_⟩
  · rw [hper]; exact (pyRound_nearest _).1
  · rw [hper]; exact (pyRound_nearest _).2
  · norm_num [percent, pyRound, Int.fract]
  · norm_num [percent, pyRound, Int.fract]
  · norm_num [percent, pyRound, Int.fract]

/-- C2 amended, witness at `n = 1, d = 3`. -/
theorem percent_round_half_even_witness :
    |(percent 1 3 : ℚ) - (1 * 100 : ℚ) / 3| ≤ 1/2 := by
  exact (percent_round_half_even 1 3 (by norm_num)).1

/-- C8: `percent(0, 0) = 0` — the division branch is guarded. -/
theorem percent_zero_zero : percent 0 0 = 0 := by
  rfl

/-- C9: a missing state file yields the empty completed-identifier set. -/
theorem read_completed_slugs_none : read_completed_slugs none = ∅ := by
  rfl

/-! ### Aggregation bounds and disjointness -/

theorem doneOf_le_totalOf (cat : Finset (String × String)) (completed : Finset String) :
    doneOf cat completed ≤ totalOf cat := by
  unfold doneOf totalOf
  exact Finset.sum_le_sum fun t _ => Finset.card_le_card Finset.inter_subset_left

/-- C7: every summary computed by `main` satisfies `done ≤ total` and
`0 ≤ pct ≤ 100`, overall and for every topic. -/
theorem summaries_bounded (cat : Finset (String × String)) (completed : Finset String)
    (t : String) :
    (overallSummary cat completed).done ≤ (overallSummary cat completed).total ∧
      0 ≤ (overallSummary cat completed).pct ∧ (overallSummary cat completed).pct ≤ 100 ∧
      (topicSummary cat completed t).done ≤ (topicSummary cat completed t).total ∧
      0 ≤ (topicSummary cat completed t).pct ∧ (topicSummary cat completed t).pct ≤ 100 := by
  have hto : ((slugsOf cat t) ∩ completed).card ≤ (slugsOf cat t).card :=
    Finset.card_le_card Finset.inter_subset_left
  refine ⟨doneOf_le_totalOf cat completed, percent_nonneg _ _,
    percent_le_100 _ _ (doneOf_le_totalOf cat completed), hto,
    percent_nonneg _ _, percent_le_100 _ _ hto⟩

/-- Summing the per-topic intersection sizes equals one global intersection
size, provided the per-topic slug sets are pairwise disjoint. -/
theorem doneOf_eq_of_disjoint (cat : Finset (String × String)) (completed : Finset String)
    (hdisj : ∀ t₁ ∈ topicsOf cat, ∀ t₂ ∈ topicsOf cat,
      t₁ ≠ t₂ → slugsOf cat t₁ ∩ slugsOf cat t₂ = ∅) :
    doneOf cat completed =
      (((topicsOf cat).biUnion (slugsOf cat)) ∩ completed).card := by
  unfold doneOf
  rw [Finset.biUnion_inter]
  rw [Finset.card_biUnion]
  intro t₁ h₁ t₂ h₂ hne
  have hd : Disjoint (slugsOf cat t₁) (slugsOf cat t₂) :=
    Finset.disjoint_iff_inter_eq_empty.mpr (hdisj t₁ h₁ t₂ h₂ hne)
  exact hd.mono Finset.inter_subset_left Finset.inter_subset_left

/-- A tree in which the same stem appears under two different topic
directories; the scanner puts the slug `intro` in both topic sets. -/
def cexEntries : List Entry :=
  [⟨["exercises", "variables", "intro.rs"], true⟩,
   ⟨["exercises", "functions", "intro.rs"], true⟩]

/-- C1 counterexample: on a scanner-produced catalog whose topic slug sets are
not disjoint (slug `intro` under both `variables` and `functions`), the summed
per-topic done count is 2 while the global intersection has size 1. -/
theorem doneOf_ne_card_global_inter :
    doneOf (find_all_exercises cexEntries) {"intro"} = 2 ∧
      (((topicsOf (find_all_exercises cexEntries)).biUnion
          (slugsOf (find_all_exercises cexEntries))) ∩ {"intro"}).card = 1 ∧
      doneOf (find_all_exercises cexEntries) {"intro"} ≠
        (((topicsOf (find_all_exercises cexEntries)).biUnion
            (slugsOf (find_all_exercises cexEntries))) ∩ {"intro"}).card := by
  refine ⟨by decide, by decide, by decide⟩

/-- C1 (amended): for a catalog produced by the scanner whose topic slug sets
are pairwise disjoint, the summed per-topic done count equals the size of the
intersection of the union of all topic slug sets with the completed set. The
scanner itself does not guarantee this disjointness. -/
theorem doneOf_eq_card_global_inter (entries : List Entry) (completed : Finset String)
    (hdisj : ∀ t₁ ∈ topicsOf (find_all_exercises entries),
      ∀ t₂ ∈ topicsOf (find_all_exercises entries),
        t₁ ≠ t₂ →
          slugsOf (find_all_exercises entries) t₁ ∩
              slugsOf (find_all_exercises entries) t₂ = ∅) :
    doneOf (find_all_exercises entries) completed =
      (((topicsOf (find_all_exercises entries)).biUnion
          (slugsOf (find_all_exercises entries))) ∩ completed).card :=
  doneOf_eq_of_disjoint _ _ hdisj

/-- C1 amended, witness on a two-topic tree with disjoint slug sets. -/
theorem doneOf_eq_card_global_inter_witness :
    doneOf (find_all_exercises
        [⟨["exercises", "ints", "ints1.rs"], true⟩,
         ⟨["exercises", "strings", "strings1.rs"], true⟩]) {"ints1"} =
      (((topicsOf (find_all_exercises
            [⟨["exercises", "ints", "ints1.rs"], true⟩,
             ⟨["exercises", "strings", "strings1.rs"], true⟩])).biUnion
          (slugsOf (find_all_exercises
            [⟨["exercises", "ints", "ints1.rs"], true⟩,
             ⟨["exercises", "strings", "strings1.rs"], true⟩]))) ∩ {"ints1"}).card :=
  doneOf_eq_card_global_inter
    [⟨["exercises", "ints", "ints1.rs"], true⟩,
     ⟨["exercises", "strings", "strings1.rs"], true⟩]
    {"ints1"} (by decide)

/-- C6: an entry with a path component in the exclusion set contributes
nothing to the catalog, wherever it sits in the enumeration and at any depth,
even when it is a file with an allow-listed extension. -/
theorem excluded_never_counted (l₁ l₂ : List Entry) (e : Entry)
    (hex : ∃ p ∈ e.parts, p ∈ EXCLUDE_DIRS) :
    find_all_exercises (l₁ ++ e :: l₂) = find_all_exercises (l₁ ++ l₂) := by
  have hx : excluded e = true := by
    obtain ⟨p, hp, hpe⟩ := hex
    unfold excluded
    rw [List.any_eq_true]
    refine ⟨p, hp, ?_⟩
    simp only [EXCLUDE_DIRS, List.mem_cons, List.not_mem_nil, or_false] at hpe
    rcases hpe with h | h | h <;> subst h <;> rfl
  simp [find_all_exercises, List.foldr_append, hx]

/-- C6 witness: an `.rs` file nested under an `answers` directory is dropped. -/
theorem excluded_never_counted_witness :
    find_all_exercises
        ([] ++ (⟨["exercises", "answers", "variables", "variables1.rs"], true⟩ : Entry)
          :: []) =
      find_all_exercises ([] ++ []) :=
  excluded_never_counted [] []
    ⟨["exercises", "answers", "variables", "variables1.rs"], true⟩
    ⟨"answers", by decide, by decide⟩

/-- The exercise tree of the specified scenario, as seen by `rglob`. -/
def scenarioEntries : List Entry :=
  [⟨["exercises", "variables"], false⟩,
   ⟨["exercises", "variables", "variables1.rs"], true⟩,
   ⟨["exercises", "variables", "variables2.rs"], true⟩,
   ⟨["exercises", "move_semantics"], false⟩,
   ⟨["exercises", "move_semantics", "move_semantics2.rs"], true⟩]

/-- The contents of the scenario's state file. -/
def scenarioState : String := "variables1.rs\nmove_semantics2 (extra text)"

/-- The completed set read from the scenario's state file. -/
def scenarioCompleted : Finset String :=
  read_completed_slugs (some scenarioState)

/-- C3: on the specified scenario the program reports `variables` with
done 1, total 2, pct 50; `move_semantics` with done 1, total 1, pct 100; and
overall done 2, total 3, pct 67. -/
theorem scenario_output :
    topicSummary (find_all_exercises scenarioEntries) scenarioCompleted ("variables") =
        ⟨1, 2, 50⟩ ∧
      topicSummary (find_all_exercises scenarioEntries) scenarioCompleted
          ("move_semantics") = ⟨1, 1, 100⟩ ∧
      overallSummary (find_all_exercises scenarioEntries) scenarioCompleted =
        ⟨2, 3, 67⟩ := by
  refine ⟨?_, ?_, ?_⟩
  · have hd : ((slugsOf (find_all_exercises scenarioEntries) "variables") ∩
        scenarioCompleted).card = 1 := by decide
    have ht : (slugsOf (find_all_exercises scenarioEntries) "variables").card = 2 := by
      decide
    simp only [topicSummary, hd, ht]
    norm_num [percent, pyRound, Int.fract, Summary.mk.injEq]
  · have hd : ((slugsOf (find_all_exercises scenarioEntries) "move_semantics") ∩
        scenarioCompleted).card = 1 := by decide
    have ht : (slugsOf (find_all_exercises scenarioEntries) "move_semantics").card = 1 := by
      decide
    simp only [topicSummary, hd, ht]
    norm_num [percent, pyRound, Int.fract, Summary.mk.injEq]
  · have hd : doneOf (find_all_exercises scenarioEntries) scenarioCompleted = 2 := by
      decide
    have ht : totalOf (find_all_exercises scenarioEntries) = 3 := by decide
    simp only [overallSummary, hd, ht]
    norm_num [percent, pyRound, Int.fract, Summary.mk.injEq]

/-! ### README patcher

`patch_readme` in progress.py reads the README, and if the begin marker
occurs in it, applies
`re.sub(r"<!-- RUSTLINGS_PROGRESS -->.*?<!-- /RUSTLINGS_PROGRESS -->", repl,
content, flags=re.S)`; otherwise it appends `"\n\n" + repl + "\n"`.
The regex engine finds the leftmost match (which starts at the first
occurrence of the begin marker, provided some occurrence of the end marker
starts at or after its end), extends it minimally (non-greedy `.*?` with
`re.S`: up to the first occurrence of the end marker), replaces it, and
continues scanning after the replaced match; `re.sub` replaces every such
match. `subAll` below implements exactly that recursion, with `splitFirst`
performing the first-occurrence search. -/

/-- Decimal digit characters of a natural number (Python `str` of it). -/
def natChars (n : ℕ) : List Char :=
  if n < 10 then [Nat.digitChar n]
  else natChars (n / 10) ++ [Nat.digitChar (n % 10)]
termination_by n
decreasing_by omega

/-- Python `str` of an integer. -/
def intChars (i : ℤ) : List Char :=
  if i < 0 then '-' :: natChars i.natAbs else natChars i.toNat

/-- The begin marker `"<!-- RUSTLINGS_PROGRESS -->"`. -/
def beginMarker : List Char := "<!-- RUSTLINGS_PROGRESS -->".toList

/-- The end marker `"<!-- /RUSTLINGS_PROGRESS -->"`. -/
def endMarker : List Char := "<!-- /RUSTLINGS_PROGRESS -->".toList

/-- The rendered `line` of `patch_readme`:
`![Rustlings Progress](docs/badge.svg)␣␣\n**{done} / {total} completed ({pct}%)**`. -/
def lineChars (sm : Summary) : List Char :=
  "![Rustlings Progress](docs/badge.svg)  \n**".toList ++ natChars sm.done ++
    " / ".toList ++ natChars sm.total ++ " completed (".toList ++
    intChars sm.pct ++ "%)**".toList

/-- The newline-wrapped line between the two markers. -/
def midChars (sm : Summary) : List Char := '\n' :: lineChars sm ++ ['\n']

/-- The replacement block `{marker}\n{line}\n{endmarker}` of the `re.sub`. -/
def replacementChars (sm : Summary) : List Char :=
  beginMarker ++ midChars sm ++ endMarker

/-- Split `h` at the first occurrence of `n`: `some (p, r)` with
`h = p ++ n ++ r` and no occurrence of `n` starting before `p.length`,
`none` when `n` does not occur in `h`. -/
def splitFirst (n : List Char) : List Char → Option (List Char × List Char)
  | [] => if n.isEmpty then some ([], []) else none
  | c :: cs =>
    if n.isPrefixOf (c :: cs) then some ([], (c :: cs).drop n.length)
    else
      match splitFirst n cs with
      | some (p, r) => some (c :: p, r)
      | none => none

theorem splitFirst_decomp {n : List Char} :
    ∀ {h p r : List Char}, splitFirst n h = some (p, r) → h = p ++ n ++ r := by
  intro h
  induction h with
  | nil =>
    intro p r hs
    unfold splitFirst at hs
    split_ifs at hs with he
    · obtain ⟨rfl, rfl⟩ := Prod.mk.injEq _ _ _ _ ▸ Option.some.injEq _ _ ▸ hs
      simp [List.isEmpty_iff.mp he]
  | cons c cs ih =>
    intro p r hs
    unfold splitFirst at hs
    split_ifs at hs with hpre
    · obtain ⟨rfl, rfl⟩ := Prod.mk.injEq _ _ _ _ ▸ Option.some.injEq _ _ ▸ hs
      obtain ⟨t, ht⟩ := List.isPrefixOf_iff_prefix.mp hpre
      rw [← ht, List.drop_left]
      simp
    · cases hrec : splitFirst n cs with
      | some pr =>
        obtain ⟨p', r'⟩ := pr
        rw [hrec] at hs
        obtain ⟨rfl, rfl⟩ := Prod.mk.injEq _ _ _ _ ▸ Option.some.injEq _ _ ▸ hs
        simpa using ih hrec
      | none => rw [hrec] at hs; exact absurd hs (by simp)

theorem splitFirst_min {n : List Char} :
    ∀ {h p r : List Char}, splitFirst n h = some (p, r) →
      ∀ j < p.length, ¬ n <+: h.drop j := by
  intro h
  induction h with
  | nil =>
    intro p r hs
    unfold splitFirst at hs
    split_ifs at hs with he
    · obtain ⟨rfl, rfl⟩ := Prod.mk.injEq _ _ _ _ ▸ Option.some.injEq _ _ ▸ hs
      intro j hj
      exact absurd hj (by simp)
  | cons c cs ih =>
    intro p r hs
    unfold splitFirst at hs
    split_ifs at hs with hpre
    · obtain ⟨rfl, rfl⟩ := Prod.mk.injEq _ _ _ _ ▸ Option.some.injEq _ _ ▸ hs
      intro j hj
      exact absurd hj (by simp)
    · cases hrec : splitFirst n cs with
      | some pr =>
        obtain ⟨p', r'⟩ := pr
        rw [hrec] at hs
        obtain ⟨rfl, rfl⟩ := Prod.mk.injEq _ _ _ _ ▸ Option.some.injEq _ _ ▸ hs
        intro j hj
        cases j with
        | zero =>
          intro hcon
          exact hpre (List.isPrefixOf_iff_prefix.mpr (by simpa using hcon))
        | succ j' =>
          simp only [List.length_cons, Nat.succ_lt_succ_iff] at hj
          simpa using ih hrec j' hj
      | none => rw [hrec] at hs; exact absurd hs (by simp)

theorem splitFirst_none_not_prefix {n : List Char} :
    ∀ {h : List Char}, splitFirst n h = none → ∀ j, ¬ n <+: h.drop j := by
  intro h
  induction h with
  | nil =>
    intro hs j hcon
    unfold splitFirst at hs
    split_ifs at hs with he
    have : n = [] := List.prefix_nil.mp (by simpa using hcon)
    exact he (by simp [this])
  | cons c cs ih =>
    intro hs j
    unfold splitFirst at hs
    split_ifs at hs with hpre
    · cases hrec : splitFirst n cs with
      | some pr => rw [hrec] at hs; exact absurd hs (by simp)
      | none =>
        cases j with
        | zero =>
          intro hcon
          exact hpre (List.isPrefixOf_iff_prefix.mpr (by simpa using hcon))
        | succ j' => simpa using ih hrec j'

theorem splitFirst_eq_some {n : List Char} :
    ∀ {p : List Char} (r : List Char),
      (∀ j < p.length, ¬ n <+: (p ++ n ++ r).drop j) →
        splitFirst n (p ++ n ++ r) = some (p, r) := by
  intro p
  induction p with
  | nil =>
    intro r _
    simp only [List.nil_append]
    cases hnr : n ++ r with
    | nil =>
      have hn : n = [] := by
        cases n with
        | nil => rfl
        | cons a as => exact absurd hnr (by simp)
      subst hn
      simp only [List.nil_append] at hnr
      subst hnr
      rfl
    | cons a as =>
      unfold splitFirst
      rw [← hnr]
      rw [if_pos (List.isPrefixOf_iff_prefix.mpr (List.prefix_append n r))]
      rw [List.drop_left]
  | cons a p' ih =>
    intro r hmin
    have h0 : ¬ n.isPrefixOf (a :: (p' ++ n ++ r)) := by
      intro hcon
      exact hmin 0 (by simp) (by simpa using List.isPrefixOf_iff_prefix.mp hcon)
    show splitFirst n (a :: (p' ++ n ++ r)) = some (a :: p', r)
    unfold splitFirst
    rw [if_neg h0]
    rw [ih r (fun j hj => by simpa using hmin (j + 1) (by simpa using hj))]

/-- The `re.sub` call of `patch_readme`: repeatedly replace the region from
the first begin marker through the first end marker after it (inclusive) by
the replacement block, continuing after the replaced region; content with no
such region is returned unchanged. -/
def subAll (sm : Summary) (c : List Char) : List Char :=
  match hb : splitFirst beginMarker c with
  | none => c
  | some (p, rest) =>
    match he : splitFirst endMarker rest with
    | none => c
    | some (m, s) => p ++ replacementChars sm ++ subAll sm s
termination_by c.length
decreasing_by
  have h1 := splitFirst_decomp hb
  have h2 := splitFirst_decomp he
  rw [h1, h2]
  have hbl : 0 < beginMarker.length := by decide
  have hel : 0 < endMarker.length := by decide
  simp only [List.length_append]
  omega

theorem subAll_of_no_begin (sm : Summary) (c : List Char)
    (hb : splitFirst beginMarker c = none) : subAll sm c = c := by
  rw [subAll.eq_def]
  split
  · rfl
  · next p rest heq =>
    rw [hb] at heq
    exact absurd heq (by simp)

theorem subAll_of_no_end (sm : Summary) (c : List Char) (p rest : List Char)
    (hb : splitFirst beginMarker c = some (p, rest))
    (he : splitFirst endMarker rest = none) : subAll sm c = c := by
  rw [subAll.eq_def]
  split
  · rfl
  · next p' rest' heq =>
    rw [hb] at heq
    obtain ⟨rfl, rfl⟩ := Prod.mk.injEq _ _ _ _ ▸ Option.some.injEq _ _ ▸ heq.symm
    split
    · rfl
    · next m s heq2 =>
      rw [he] at heq2
      exact absurd heq2 (by simp)

theorem subAll_step (sm : Summary) (c : List Char) (p rest m s : List Char)
    (hb : splitFirst beginMarker c = some (p, rest))
    (he : splitFirst endMarker rest = some (m, s)) :
    subAll sm c = p ++ replacementChars sm ++ subAll sm s := by
  rw [subAll.eq_def]
  split
  · next heq => rw [hb] at heq; exact absurd heq (by simp)
  · next p' rest' heq =>
    rw [hb] at heq
    obtain ⟨rfl, rfl⟩ := Prod.mk.injEq _ _ _ _ ▸ Option.some.injEq _ _ ▸ heq.symm
    split
    · next heq2 => rw [he] at heq2; exact absurd heq2 (by simp)
    · next m' s' heq2 =>
      rw [he] at heq2
      obtain ⟨rfl, rfl⟩ := Prod.mk.injEq _ _ _ _ ▸ Option.some.injEq _ _ ▸ heq2.symm
      rfl

/-- The body of `patch_readme` on existing README contents: substitute when
the begin marker occurs in the content (Python `marker in content`),
otherwise append `"\n\n" + replacement + "\n"`. -/
def patchContent (sm : Summary) (c : List Char) : List Char :=
  if (splitFirst beginMarker c).isSome then subAll sm c
  else c ++ '\n' :: '\n' :: (replacementChars sm ++ ['\n'])

/-- Function `patch_readme` from progress.py on the optional README contents: a
missing README (`none`) is left untouched, otherwise the content is patched. -/
def patch_readme (sm : Summary) : Option (List Char) → Option (List Char)
  | none => none
  | some c => some (patchContent sm c)

/-! ### Occurrence lemmas -/

theorem splitFirst_isSome_of_infix {n h : List Char} (hin : n <:+: h) :
    (splitFirst n h).isSome := by
  obtain ⟨s, t, hst⟩ := hin
  cases hsp : splitFirst n h with
  | some pr => rfl
  | none =>
    exfalso
    apply splitFirst_none_not_prefix hsp s.length
    rw [← hst, List.append_assoc, List.drop_left]
    exact List.prefix_append n t

theorem infix_of_splitFirst_some {n h p r : List Char}
    (hs : splitFirst n h = some (p, r)) : n <:+: h :=
  ⟨p, r, (splitFirst_decomp hs).symm⟩

theorem prefix_append_of_le_iff {n A : List Char} (t : List Char)
    (h : n.length ≤ A.length) : n <+: A ++ t ↔ n <+: A := by
  rw [List.prefix_iff_eq_take, List.prefix_iff_eq_take, List.take_append_eq_append_take]
  have h0 : n.length - A.length = 0 := by omega
  rw [h0]
  simp

theorem prefix_drop_indep {n p : List Char} (t₁ t₂ : List Char) (j : ℕ)
    (hj : j ≤ p.length) (h : n <+: (p ++ n ++ t₁).drop j) :
    n <+: (p ++ n ++ t₂).drop j := by
  have e : ∀ t : List Char, (p ++ n ++ t).drop j = (p ++ n).drop j ++ t := by
    intro t
    rw [List.drop_append_eq_append_drop]
    have h0 : j - (p ++ n).length = 0 := by
      simp only [List.length_append]
      omega
    rw [h0]
    simp
  have hlen : n.length ≤ ((p ++ n).drop j).length := by
    simp only [List.length_drop, List.length_append]
    omega
  rw [e t₁] at h
  rw [e t₂]
  exact (prefix_append_of_le_iff t₂ hlen).mpr ((prefix_append_of_le_iff t₁ hlen).mp h)

theorem prefix_getElem? {n l : List Char} (h : n <+: l) (i : ℕ)
    (hi : i < n.length) : l[i]? = n[i]? := by
  obtain ⟨t, rfl⟩ := h
  rw [List.getElem?_append]
  rw [if_pos hi]

/-- C10: when the content contains the begin marker but not the end marker,
`patch_readme` leaves the content unchanged — the substitution finds no match
and the append branch is not taken. -/
theorem patch_begin_without_end (sm : Summary) (c : List Char)
    (hb : beginMarker <:+: c) (he : ¬ endMarker <:+: c) :
    patch_readme sm (some c) = some c := by
  have hsome := splitFirst_isSome_of_infix hb
  show some (patchContent sm c) = some c
  unfold patchContent
  rw [if_pos hsome]
  obtain ⟨⟨p, rest⟩, hpr⟩ := Option.isSome_iff_exists.mp hsome
  cases hend : splitFirst endMarker rest with
  | none => rw [subAll_of_no_end sm c p rest hpr hend]
  | some ms =>
    obtain ⟨m, s⟩ := ms
    exfalso
    apply he
    have h1 : c = p ++ beginMarker ++ rest := splitFirst_decomp hpr
    have h2 : rest = m ++ endMarker ++ s := splitFirst_decomp hend
    refine ⟨p ++ beginMarker ++ m, s, ?_⟩
    rw [h1, h2]
    simp [List.append_assoc]

/-- C10 witness: content consisting of the begin marker alone is unchanged. -/
theorem patch_begin_without_end_witness :
    patch_readme ⟨0, 0, 0⟩ (some beginMarker) = some beginMarker :=
  patch_begin_without_end ⟨0, 0, 0⟩ beginMarker (by decide) (by decide)

/-! ### Characters of the rendered block -/

theorem natChars_ne_lt (n : ℕ) : ∀ ch ∈ natChars n, ch ≠ '<' := by
  induction n using Nat.strong_induction_on with
  | _ n ih =>
    have h10 : ∀ m, m < 10 → Nat.digitChar m ≠ '<' := by decide
    rw [natChars]
    split_ifs with h
    · intro ch hch
      simp only [List.mem_singleton] at hch
      subst hch
      exact h10 n h
    · intro ch hch
      rcases List.mem_append.mp hch with h1 | h2
      · exact ih (n / 10) (by omega) ch h1
      · simp only [List.mem_singleton] at h2
        subst h2
        exact h10 _ (Nat.mod_lt _ (by norm_num))

theorem intChars_ne_lt (i : ℤ) : ∀ ch ∈ intChars i, ch ≠ '<' := by
  unfold intChars
  split_ifs with h
  · intro ch hch
    rcases List.mem_cons.mp hch with h1 | h2
    · subst h1; decide
    · exact natChars_ne_lt _ ch h2
  · exact natChars_ne_lt _

theorem midChars_ne_lt (sm : Summary) : ∀ ch ∈ midChars sm, ch ≠ '<' := by
  have l1 : ∀ ch ∈ "![Rustlings Progress](docs/badge.svg)  \n**".toList, ch ≠ '<' := by
    decide
  have l2 : ∀ ch ∈ " / ".toList, ch ≠ '<' := by decide
  have l3 : ∀ ch ∈ " completed (".toList, ch ≠ '<' := by decide
  have l4 : ∀ ch ∈ "%)**".toList, ch ≠ '<' := by decide
  intro ch hch
  rcases List.mem_cons.mp hch with rfl | hch
  · decide
  rcases List.mem_append.mp hch with hch | hch
  · simp only [lineChars, List.mem_append] at hch
    rcases hch with (((((hch | hch) | hch) | hch) | hch) | hch) | hch
    · exact l1 ch hch
    · exact natChars_ne_lt _ ch hch
    · exact l2 ch hch
    · exact natChars_ne_lt _ ch hch
    · exact l3 ch hch
    · exact intChars_ne_lt _ ch hch
    · exact l4 ch hch
  · simp only [List.mem_singleton] at hch
    subst hch
    decide

/-- In `midChars ++ endMarker ++ Z`, the first occurrence of the end marker
is exactly the explicit one: every earlier position holds a character other
than `'<'`. -/
theorem splitFirst_end_at_mid (sm : Summary) (Z : List Char) :
    splitFirst endMarker (midChars sm ++ endMarker ++ Z) =
      some (midChars sm, Z) := by
  apply splitFirst_eq_some
  intro j hj hcon
  have h0 := prefix_getElem? hcon 0 (by decide)
  rw [List.getElem?_drop] at h0
  have hE : endMarker[0]? = some '<' := by decide
  rw [hE] at h0
  have hX : midChars sm ++ endMarker ++ Z = midChars sm ++ (endMarker ++ Z) := by
    rw [List.append_assoc]
  rw [hX, Nat.add_zero, List.getElem?_append, if_pos hj] at h0
  exact midChars_ne_lt sm '<' (List.getElem?_mem h0) rfl

/-- C4: the three behaviours of the README patcher. A missing README is
skipped. Content without the markers gets the newline-separated marked block
appended at the end. Content of the form
`p ++ begin ++ m ++ end ++ s` — with the shown occurrences the first ones,
and no further begin marker in `s` — has the whole region from begin marker
through end marker (markers included) replaced by the freshly rendered block
bounded by the same markers, with `p` and `s` untouched. -/
theorem patch_readme_cases (sm : Summary) (c p m s : List Char)
    (hb : ¬ beginMarker <:+: c) (he : ¬ endMarker <:+: c)
    (hminb : ∀ j < p.length,
      ¬ beginMarker <+: (p ++ beginMarker ++ (m ++ endMarker ++ s)).drop j)
    (hmine : ∀ j < m.length, ¬ endMarker <+: (m ++ endMarker ++ s).drop j)
    (hs : ¬ beginMarker <:+: s) :
    patch_readme sm none = none ∧
      patch_readme sm (some c) =
        some (c ++ '\n' :: '\n' :: (replacementChars sm ++ ['\n'])) ∧
      patch_readme sm (some (p ++ beginMarker ++ (m ++ endMarker ++ s))) =
        some (p ++ replacementChars sm ++ s) := by
  refine ⟨rfl, ?_, ?_⟩
  · have hnone : splitFirst beginMarker c = none := by
      cases hsp : splitFirst beginMarker c with
      | none => rfl
      | some pr =>
        obtain ⟨p', r'⟩ := pr
        exact absurd (infix_of_splitFirst_some hsp) hb
    show some (patchContent sm c) = _
    unfold patchContent
    rw [hnone]
    rfl
  · have hsp : splitFirst beginMarker (p ++ beginMarker ++ (m ++ endMarker ++ s)) =
        some (p, m ++ endMarker ++ s) := splitFirst_eq_some _ hminb
    have hse : splitFirst endMarker (m ++ endMarker ++ s) = some (m, s) :=
      splitFirst_eq_some _ hmine
    have hsnone : splitFirst beginMarker s = none := by
      cases hsp2 : splitFirst beginMarker s with
      | none => rfl
      | some pr =>
        obtain ⟨p', r'⟩ := pr
        exact absurd (infix_of_splitFirst_some hsp2) hs
    show some (patchContent sm _) = _
    unfold patchContent
    rw [hsp]
    show some (subAll sm _) = _
    rw [subAll_step sm _ p (m ++ endMarker ++ s) m s hsp hse]
    rw [subAll_of_no_begin sm s hsnone]

/-- C4 witness on concrete one-character pieces. -/
theorem patch_readme_cases_witness :
    patch_readme ⟨1, 2, 50⟩ none = none ∧
      patch_readme ⟨1, 2, 50⟩ (some ['a']) =
        some (['a'] ++ '\n' :: '\n' :: (replacementChars ⟨1, 2, 50⟩ ++ ['\n'])) ∧
      patch_readme ⟨1, 2, 50⟩
          (some (['b'] ++ beginMarker ++ (['x'] ++ endMarker ++ ['c']))) =
        some (['b'] ++ replacementChars ⟨1, 2, 50⟩ ++ ['c']) :=
  patch_readme_cases ⟨1, 2, 50⟩ ['a'] ['b'] ['x'] ['c'] (by decide) (by decide)
    (by decide) (by decide) (by decide)

/-! ### Idempotence of the patcher -/

theorem subAll_idem_aux (sm : Summary) :
    ∀ N c, List.length c ≤ N → subAll sm (subAll sm c) = subAll sm c := by
  intro N
  induction N with
  | zero =>
    intro c hc
    have hc0 : c = [] := List.length_eq_zero.mp (Nat.le_zero.mp hc)
    subst hc0
    have hn : splitFirst beginMarker ([] : List Char) = none := by decide
    rw [subAll_of_no_begin sm [] hn]
    exact subAll_of_no_begin sm [] hn
  | succ N ih =>
    intro c hc
    cases hb : splitFirst beginMarker c with
    | none =>
      rw [subAll_of_no_begin sm c hb]
      exact subAll_of_no_begin sm c hb
    | some pr =>
      obtain ⟨p, rest⟩ := pr
      cases he : splitFirst endMarker rest with
      | none =>
        rw [subAll_of_no_end sm c p rest hb he]
        exact subAll_of_no_end sm c p rest hb he
      | some ms =>
        obtain ⟨m, s⟩ := ms
        have hdec : c = p ++ beginMarker ++ rest := splitFirst_decomp hb
        have hdec2 : rest = m ++ endMarker ++ s := splitFirst_decomp he
        have hmin : ∀ j < p.length, ¬ beginMarker <+: (p ++ beginMarker ++ rest).drop j := by
          rw [← hdec]
          exact splitFirst_min hb
        have hstep := subAll_step sm c p rest m s hb he
        have hlen : s.length ≤ N := by
          have h27 : beginMarker.length = 27 := by decide
          have h28 : endMarker.length = 28 := by decide
          rw [hdec, hdec2] at hc
          simp only [List.length_append, h27, h28] at hc
          omega
        have hidem_s := ih s hlen
        have heq2 : p ++ replacementChars sm ++ subAll sm s =
            p ++ beginMarker ++ (midChars sm ++ endMarker ++ subAll sm s) := by
          simp [replacementChars, List.append_assoc]
        have hmin' : ∀ j < p.length,
            ¬ beginMarker <+:
              (p ++ beginMarker ++ (midChars sm ++ endMarker ++ subAll sm s)).drop j := by
          intro j hj hcon
          exact hmin j hj (prefix_drop_indep _ rest j (le_of_lt hj) hcon)
        have hsp1 : splitFirst beginMarker
            (p ++ beginMarker ++ (midChars sm ++ endMarker ++ subAll sm s)) =
              some (p, midChars sm ++ endMarker ++ subAll sm s) :=
          splitFirst_eq_some _ hmin'
        have hsp2 := splitFirst_end_at_mid sm (subAll sm s)
        rw [hstep, heq2]
        rw [subAll_step sm _ p (midChars sm ++ endMarker ++ subAll sm s)
          (midChars sm) (subAll sm s) hsp1 hsp2]
        rw [hidem_s]
        exact heq2

theorem splitFirst_isSome_subAll (sm : Summary) (c : List Char)
    (h : (splitFirst beginMarker c).isSome = true) :
    (splitFirst beginMarker (subAll sm c)).isSome = true := by
  obtain ⟨⟨p, rest⟩, hb⟩ := Option.isSome_iff_exists.mp h
  cases he : splitFirst endMarker rest with
  | none => rw [subAll_of_no_end sm c p rest hb he]; exact h
  | some ms =>
    obtain ⟨m, s⟩ := ms
    rw [subAll_step sm c p rest m s hb he]
    apply splitFirst_isSome_of_infix
    exact ⟨p, midChars sm ++ endMarker ++ subAll sm s, by
      simp [replacementChars, List.append_assoc]⟩

theorem patchContent_idem (sm : Summary) (c : List Char) :
    patchContent sm (patchContent sm c) = patchContent sm c := by
  by_cases hb : (splitFirst beginMarker c).isSome = true
  · have h1 : patchContent sm c = subAll sm c := by
      unfold patchContent
      rw [if_pos hb]
    rw [h1]
    have h2 := splitFirst_isSome_subAll sm c hb
    unfold patchContent
    rw [if_pos h2]
    exact subAll_idem_aux sm c.length c le_rfl
  · have hnone : splitFirst beginMarker c = none := by
      cases hsp : splitFirst beginMarker c with
      | none => rfl
      | some pr => rw [hsp] at hb; exact absurd rfl hb
    have h1 : patchContent sm c = c ++ '\n' :: '\n' :: (replacementChars sm ++ ['\n']) := by
      unfold patchContent
      rw [if_neg hb]
    have hA : c ++ '\n' :: '\n' :: (replacementChars sm ++ ['\n']) =
        (c ++ ['\n', '\n']) ++ beginMarker ++ (midChars sm ++ endMarker ++ ['\n']) := by
      simp [replacementChars, List.append_assoc]
    have h27 : beginMarker.length = 27 := by decide
    have hminA : ∀ j < (c ++ ['\n', '\n']).length,
        ¬ beginMarker <+:
          ((c ++ ['\n', '\n']) ++ beginMarker ++
            (midChars sm ++ endMarker ++ ['\n'])).drop j := by
      intro j hj hcon
      simp only [List.length_append, List.length_cons, List.length_nil] at hj
      by_cases hcase : j + beginMarker.length ≤ c.length
      · apply splitFirst_none_not_prefix hnone j
        have e : ((c ++ ['\n', '\n']) ++ beginMarker ++
            (midChars sm ++ endMarker ++ ['\n'])).drop j =
              c.drop j ++ (['\n', '\n'] ++ beginMarker ++
                (midChars sm ++ endMarker ++ ['\n'])) := by
          have ha : (c ++ ['\n', '\n']) ++ beginMarker ++
              (midChars sm ++ endMarker ++ ['\n']) =
                c ++ (['\n', '\n'] ++ beginMarker ++
                  (midChars sm ++ endMarker ++ ['\n'])) := by
            simp [List.append_assoc]
          rw [ha, List.drop_append_eq_append_drop]
          have h0 : j - c.length = 0 := by omega
          rw [h0]
          simp
        rw [e] at hcon
        have hle : beginMarker.length ≤ (c.drop j).length := by
          simp only [List.length_drop]
          omega
        exact (prefix_append_of_le_iff _ hle).mp hcon
      · push_neg at hcase
        have hkb : max c.length j - j < beginMarker.length := by omega
        have hchar : ((c ++ ['\n', '\n']) ++ beginMarker ++
            (midChars sm ++ endMarker ++ ['\n']))[max c.length j]? = some '\n' := by
          have ha : (c ++ ['\n', '\n']) ++ beginMarker ++
              (midChars sm ++ endMarker ++ ['\n']) =
                c ++ ('\n' :: '\n' :: (beginMarker ++
                  (midChars sm ++ endMarker ++ ['\n']))) := by
            simp [List.append_assoc]
          rw [ha, List.getElem?_append_right (by omega : c.length ≤ max c.length j)]
          have : max c.length j - c.length = 0 ∨ max c.length j - c.length = 1 := by
            omega
          rcases this with h | h <;> rw [h] <;> rfl
        have hp := prefix_getElem? hcon (max c.length j - j) hkb
        rw [List.getElem?_drop] at hp
        have hjk : j + (max c.length j - j) = max c.length j := by omega
        rw [hjk, hchar] at hp
        have hmem : '\n' ∈ beginMarker := List.getElem?_mem hp.symm
        have hnot : '\n' ∉ beginMarker := by decide
        exact hnot hmem
    have hsp1 : splitFirst beginMarker
        ((c ++ ['\n', '\n']) ++ beginMarker ++ (midChars sm ++ endMarker ++ ['\n'])) =
          some (c ++ ['\n', '\n'], midChars sm ++ endMarker ++ ['\n']) :=
      splitFirst_eq_some _ hminA
    have hsp2 := splitFirst_end_at_mid sm ['\n']
    have hnl : splitFirst beginMarker ['\n'] = none := by decide
    rw [h1, hA]
    unfold patchContent
    rw [if_pos (by rw [hsp1]; rfl)]
    rw [subAll_step sm _ (c ++ ['\n', '\n']) (midChars sm ++ endMarker ++ ['\n'])
      (midChars sm) ['\n'] hsp1 hsp2]
    rw [subAll_of_no_begin sm ['\n'] hnl]
    simp [replacementChars, List.append_assoc]

/-- C5: applying the README patch twice with the same summary yields the same
content as applying it once — no duplicate marker blocks accumulate. -/
theorem patch_readme_idempotent (sm : Summary) (r : Option (List Char)) :
    patch_readme sm (patch_readme sm r) = patch_readme sm r := by
  cases r with
  | none => rfl
  | some c =>
    show some (patchContent sm (patchContent sm c)) = some (patchContent sm c)
    rw [patchContent_idem]

end Progress
